import Mathlib

/-!
Verification of the rengo expression-to-assembly compiler.

This file gives a shallow embedding of the core of the repository:
the token model and tokenizer (src/parser/token.rs, src/parser/tokenize.rs),
the AST (src/ast/expr.rs), the recursive-descent parser (src/parser/parse.rs),
the binding environment (src/env.rs), the code generator
(src/compiler/compile.rs) and the instruction renderer (src/asm/to_string.rs),
together with theorems settling the frozen specification claims.

Modelling conventions: Rust i64 values are modelled as Lean Int (no claim
depends on 64-bit wraparound), Rust HashMap<String, i64> is modelled as an
association list without duplicate keys whose insert replaces in place, and
the mutable environment reference of the Rust code generator is modelled by
explicit state passing: the environment is threaded through and returned
also on the error path, exactly as a &mut reference leaves its referent.
-/

/-! ## Registers, operands and instructions (src/asm/reg.rs, arg.rs, instruction.rs) -/

inductive Reg where
  | Rax : Reg
  | Rsp : Reg
deriving DecidableEq, Repr

inductive Arg where
  | Constant : Int → Arg
  | Registry : Reg → Arg
  | RegistryOffset : Reg → Int → Arg
deriving DecidableEq, Repr

inductive Instruction where
  | Inc : Arg → Instruction
  | Dec : Arg → Instruction
  | Mov : Arg → Arg → Instruction
  | Add : Arg → Arg → Instruction
  | Sub : Arg → Arg → Instruction
deriving DecidableEq, Repr

/-! ## AST (src/ast/expr.rs) -/

inductive Expression where
  | Number : Int → Expression
  | Increment : Expression → Expression
  | Decrement : Expression → Expression
  | Identifier : String → Expression
  | Let : String → Expression → Expression → Expression
deriving DecidableEq, Repr

/-! ## Environment (src/env.rs)

Rust: pub(crate) type Env = HashMap<String, i64>. Modelled as an association
list with no duplicate keys; envInsert replaces an existing binding in place
(so the length of the list tracks HashMap::len exactly), envFind models get. -/

abbrev Env := List (String × Int)

def envFind (env : Env) (name : String) : Option Int :=
  match env with
  | [] => none
  | (n, s) :: rest => if n = name then some s else envFind rest name

def envInsert (env : Env) (name : String) (slot : Int) : Env :=
  match env with
  | [] => [(name, slot)]
  | (n, s) :: rest =>
    if n = name then (name, slot) :: rest else (n, s) :: envInsert rest name slot

/-- Rust fn add(name, env) of src/env.rs: slot = env.len() + 1, insert, return
the slot. The mutated map is returned as the second component. -/
def add (name : String) (env : Env) : Int × Env :=
  let slot : Int := (env.length : Int) + 1
  (slot, envInsert env name slot)

/-- Runs a sequence of add calls, returning the slots assigned in order and
the final environment. -/
def addAll (names : List String) (env : Env) : List Int × Env :=
  match names with
  | [] => ([], env)
  | n :: rest =>
    let (slot, env1) := add n env
    let (slots, env2) := addAll rest env1
    (slot :: slots, env2)

/-! ## Code generator (src/compiler/compile.rs)

Rust: fn compile_expression(&Expression, &mut Env) -> Result<Vec<Instruction>, ()>.
The &mut environment is modelled by returning the environment next to the
Result, on the error path as well. -/

def compile_expression (expression : Expression) (env : Env) :
    Except Unit (List Instruction) × Env :=
  match expression with
  | .Number value =>
    (.ok [.Mov (.Registry .Rax) (.Constant value)], env)
  | .Increment expr =>
    match compile_expression expr env with
    | (.ok instructions, env1) =>
      (.ok (instructions ++ [.Inc (.Registry .Rax)]), env1)
    | (.error e, env1) => (.error e, env1)
  | .Decrement expr =>
    match compile_expression expr env with
    | (.ok instructions, env1) =>
      (.ok (instructions ++ [.Dec (.Registry .Rax)]), env1)
    | (.error e, env1) => (.error e, env1)
  | .Let identifier value body =>
    let (slot, env1) := add identifier env
    match compile_expression value env1 with
    | (.ok instructions, env2) =>
      (match compile_expression body env2 with
       | (.ok bodyInstructions, env3) =>
         (.ok (instructions
                ++ [.Mov (.RegistryOffset .Rsp (-slot)) (.Registry .Rax)]
                ++ bodyInstructions), env3)
       | (.error e, env3) => (.error e, env3))
    | (.error e, env2) => (.error e, env2)
  | .Identifier identifier =>
    match envFind env identifier with
    | some slot => (.ok [.Mov (.Registry .Rax) (.RegistryOffset .Rsp (-slot))], env)
    | none => (.error (), env)

/-! ## Renderer (src/asm/to_string.rs) -/

def reg_to_string (reg : Reg) : String :=
  match reg with
  | .Rax => "rax"
  | .Rsp => "rsp"

def arg_to_string (arg : Arg) : String :=
  match arg with
  | .Constant value => toString value
  | .Registry reg => reg_to_string reg
  | .RegistryOffset reg offset => reg_to_string reg ++ " + " ++ toString offset

def asm_to_string (instructions : List Instruction) : String :=
  String.intercalate "\n"
    (instructions.map (fun instruction =>
      match instruction with
      | .Inc dest => "inc " ++ arg_to_string dest
      | .Dec dest => "dec " ++ arg_to_string dest
      | .Mov dest src => "mov " ++ arg_to_string dest ++ ", " ++ arg_to_string src
      | .Add dest src => "add " ++ arg_to_string dest ++ ", " ++ arg_to_string src
      | .Sub dest src => "sub " ++ arg_to_string dest ++ ", " ++ arg_to_string src))

/-! ## Token model (src/parser/token.rs, including the variants used by
tokenize.rs and parse.rs) -/

inductive Token where
  | Number : Int → Token
  | Increment : Token
  | Decrement : Token
  | LParen : Token
  | RParen : Token
  | Assign : Token
  | LineEnd : Token
  | Let : Token
  | Identifier : String → Token
deriving DecidableEq, Repr

/-- Rust Debug formatting of a Token, used in parser error messages. -/
def tokenDebug (t : Token) : String :=
  match t with
  | .Number v => "Number(" ++ toString v ++ ")"
  | .Increment => "Increment"
  | .Decrement => "Decrement"
  | .LParen => "LParen"
  | .RParen => "RParen"
  | .Assign => "Assign"
  | .LineEnd => "LineEnd"
  | .Let => "Let"
  | .Identifier n => "Identifier(\x22" ++ n ++ "\x22)"

/-! ## Tokenizer (src/parser/tokenize.rs)

The Rust tokenizer walks a peekable character iterator; here the iterator
state is the list of remaining characters, and each helper returns the
token together with the remaining characters. -/

/-- Splits off the leading run of decimal digits. -/
def spanDigits (cs : List Char) : List Char × List Char :=
  match cs with
  | [] => ([], [])
  | c :: rest =>
    if c.isDigit then
      ((c :: (spanDigits rest).1), (spanDigits rest).2)
    else ([], c :: rest)

/-- Splits off the leading run of alphanumeric or underscore characters. -/
def spanWord (cs : List Char) : List Char × List Char :=
  match cs with
  | [] => ([], [])
  | c :: rest =>
    if c.isAlphanum || c = '_' then
      ((c :: (spanWord rest).1), (spanWord rest).2)
    else ([], c :: rest)

/-- Numeric value of a digit run, as Rust str::parse computes it. -/
def natOfDigits (cs : List Char) : Nat :=
  cs.foldl (fun a c => 10 * a + (c.toNat - 48)) 0

/-- Rust fn parse_number of tokenize.rs: consume the digit run, then error
if the next character is alphabetic. -/
def parse_number (cs : List Char) : Except String (Token × List Char) :=
  let ds := (spanDigits cs).1
  let rest := (spanDigits cs).2
  match rest.head? with
  | some nc =>
    if nc.isAlpha then
      .error ("Invalid sequence: Number \x27" ++ String.mk ds
        ++ "\x27 followed by identifier starting with \x27" ++ String.mk [nc] ++ "\x27")
    else .ok (.Number (natOfDigits ds), rest)
  | none => .ok (.Number (natOfDigits ds), rest)

/-- Rust fn parse_minus of tokenize.rs: consume the minus; a second minus
gives Decrement, a digit starts a negative number (with no check for an
alphabetic character after the digits), anything else is an error. -/
def parse_minus (cs : List Char) : Except String (Token × List Char) :=
  match cs with
  | [] => .error "Invalid token: Expected \x27--\x27 or a number"
  | _ :: rest =>
    match rest with
    | [] => .error "Invalid token: Expected \x27--\x27 or a number"
    | d :: rest2 =>
      if d = '-' then .ok (.Decrement, rest2)
      else if d.isDigit then
        .ok (.Number (-((natOfDigits (spanDigits rest).1 : Nat) : Int)), (spanDigits rest).2)
      else .error "Invalid token: Expected \x27--\x27 or a number"

/-- Rust fn parse_plus of tokenize.rs. -/
def parse_plus (cs : List Char) : Except String (Token × List Char) :=
  match cs with
  | [] => .error "Invalid token: Expected \x27++\x27"
  | _ :: rest =>
    match rest with
    | [] => .error "Invalid token: Expected \x27++\x27"
    | d :: rest2 =>
      if d = '+' then .ok (.Increment, rest2)
      else .error "Invalid token: Expected \x27++\x27"

/-- Rust fn parse_identifier_or_keyword of tokenize.rs. -/
def parse_identifier_or_keyword (cs : List Char) : Token × List Char :=
  let w := String.mk (spanWord cs).1
  (if w = "let" then .Let else .Identifier w, (spanWord cs).2)

theorem spanDigits_snd_le (cs : List Char) : (spanDigits cs).2.length ≤ cs.length := by
  induction cs with
  | nil => simp [spanDigits]
  | cons c rest ih =>
    by_cases h : c.isDigit
    · simp only [spanDigits, h, if_true, List.length_cons]
      exact ih.trans (Nat.le_succ _)
    · simp [spanDigits, h]

theorem spanWord_snd_le (cs : List Char) : (spanWord cs).2.length ≤ cs.length := by
  induction cs with
  | nil => simp [spanWord]
  | cons c rest ih =>
    by_cases h : c.isAlphanum || c = '_'
    · simp only [spanWord, h, if_true, List.length_cons]
      exact ih.trans (Nat.le_succ _)
    · simp [spanWord, h]

theorem parse_number_ok_rest {cs : List Char} {t : Token} {r : List Char}
    (h : parse_number cs = .ok (t, r)) : r = (spanDigits cs).2 := by
  simp only [parse_number] at h
  split at h
  · split at h
    · simp at h
    · simp at h
      exact h.2.symm
  · simp at h
    exact h.2.symm

theorem parse_minus_ok_len {cs : List Char} {t : Token} {r : List Char}
    (h : parse_minus cs = .ok (t, r)) : r.length < cs.length := by
  unfold parse_minus at h
  split at h
  · simp at h
  · split at h
    · simp at h
    · split at h
      · simp at h
        obtain ⟨-, h2⟩ := h
        subst h2
        simp only [List.length_cons]
        omega
      · split at h
        · simp at h
          obtain ⟨-, h2⟩ := h
          subst h2
          exact lt_of_le_of_lt (spanDigits_snd_le _) (by simp)
        · simp at h

theorem parse_plus_ok_len {cs : List Char} {t : Token} {r : List Char}
    (h : parse_plus cs = .ok (t, r)) : r.length < cs.length := by
  unfold parse_plus at h
  split at h
  · simp at h
  · split at h
    · simp at h
    · split at h
      · simp at h
        obtain ⟨-, h2⟩ := h
        subst h2
        simp only [List.length_cons]
        omega
      · simp at h

theorem alpha_isAlphanum {c : Char} (h : c.isAlpha = true) :
    (c.isAlphanum || c = '_') = true := by
  simp [Char.isAlphanum, h]

/-- Rust fn tokenize of tokenize.rs, on the list of characters: one loop
iteration per token, dispatching on the peeked character. -/
def tokenize_aux (cs : List Char) : Except String (List Token) :=
  match cs with
  | [] => .ok []
  | c :: rest =>
    if hdig : c.isDigit then
      match hn : parse_number (c :: rest) with
      | .error e => .error e
      | .ok (t, rest2) =>
        match tokenize_aux rest2 with
        | .ok ts => .ok (t :: ts)
        | .error e => .error e
    else if c = '-' then
      match hm : parse_minus (c :: rest) with
      | .error e => .error e
      | .ok (t, rest2) =>
        match tokenize_aux rest2 with
        | .ok ts => .ok (t :: ts)
        | .error e => .error e
    else if c = '+' then
      match hp : parse_plus (c :: rest) with
      | .error e => .error e
      | .ok (t, rest2) =>
        match tokenize_aux rest2 with
        | .ok ts => .ok (t :: ts)
        | .error e => .error e
    else if c = '(' then
      match tokenize_aux rest with
      | .ok ts => .ok (.LParen :: ts)
      | .error e => .error e
    else if c = ')' then
      match tokenize_aux rest with
      | .ok ts => .ok (.RParen :: ts)
      | .error e => .error e
    else if c = '=' then
      match tokenize_aux rest with
      | .ok ts => .ok (.Assign :: ts)
      | .error e => .error e
    else if c = ';' then
      match tokenize_aux rest with
      | .ok ts => .ok (.LineEnd :: ts)
      | .error e => .error e
    else if c.isWhitespace then
      tokenize_aux rest
    else if halpha : c.isAlpha then
      match hi : parse_identifier_or_keyword (c :: rest) with
      | (t, rest2) =>
        match tokenize_aux rest2 with
        | .ok ts => .ok (t :: ts)
        | .error e => .error e
    else
      .error ("Invalid character: " ++ String.mk [c])
termination_by cs.length
decreasing_by
· have hr := parse_number_ok_rest hn
  subst hr
  have h1 : (spanDigits (c :: rest)).2 = (spanDigits rest).2 := by
    simp [spanDigits, hdig]
  rw [h1]
  have h2 := spanDigits_snd_le rest
  simp only [List.length_cons]
  omega
· exact parse_minus_ok_len hm
· exact parse_plus_ok_len hp
· simp only [List.length_cons]; omega
· simp only [List.length_cons]; omega
· simp only [List.length_cons]; omega
· simp only [List.length_cons]; omega
· simp only [List.length_cons]; omega
· have hr := congrArg Prod.snd hi
  simp only [parse_identifier_or_keyword] at hr
  rw [← hr]
  have h1 : (spanWord (c :: rest)).2 = (spanWord rest).2 := by
    simp [spanWord, alpha_isAlphanum halpha]
  rw [h1]
  have h2 := spanWord_snd_le rest
  simp only [List.length_cons]
  omega

/-- Rust fn tokenize entry point on a source string. -/
def tokenize (input : String) : Except String (List Token) :=
  tokenize_aux input.data

/-! ## Parser (src/parser/parse.rs)

The Rust parser is a family of mutually recursive functions over an index
into the token slice. Termination is justified by making each function
return, next to the parsed expression, the next index together with a proof
that it is strictly larger than the input index; thin wrappers below erase
the proof and restore the Rust signatures. -/

/-- True for the postfix operator tokens folded by the parse_term loop. -/
def isPostOp (t : Token) : Bool :=
  match t with
  | .Increment => true
  | .Decrement => true
  | _ => false

/-- The while loop of Rust fn parse_term: fold postfix increment and
decrement tokens left onto the expression parsed so far. -/
def parse_term_loop (tokens : List Token) (e : Expression) (index : Nat) :
    Expression × Nat :=
  if h : index < tokens.length then
    match tokens[index] with
    | .Increment => parse_term_loop tokens (.Increment e) (index + 1)
    | .Decrement => parse_term_loop tokens (.Decrement e) (index + 1)
    | _ => (e, index)
  else (e, index)
termination_by tokens.length - index
decreasing_by
· omega
· omega

/-- Left fold of a run of postfix tokens onto an expression. -/
def foldPost (e : Expression) (ops : List Token) : Expression :=
  match ops with
  | [] => e
  | .Increment :: rest => foldPost (.Increment e) rest
  | .Decrement :: rest => foldPost (.Decrement e) rest
  | _ :: rest => foldPost e rest

theorem parse_term_loop_spec (tokens : List Token) (e : Expression) (index : Nat) :
    parse_term_loop tokens e index =
      (foldPost e ((tokens.drop index).takeWhile isPostOp),
       index + ((tokens.drop index).takeWhile isPostOp).length) := by
  refine parse_term_loop.induct tokens
    (fun e index => parse_term_loop tokens e index =
      (foldPost e ((tokens.drop index).takeWhile isPostOp),
       index + ((tokens.drop index).takeWhile isPostOp).length)) ?_ ?_ ?_ ?_ e index
  · intro e index h ht ih
    rw [parse_term_loop]
    simp only [h, reduceDIte, ht]
    rw [ih, List.drop_eq_getElem_cons h, ht]
    simp only [List.takeWhile_cons, isPostOp, if_true, foldPost, List.length_cons]
    exact Prod.ext rfl (by omega)
  · intro e index h ht ih
    rw [parse_term_loop]
    simp only [h, reduceDIte, ht]
    rw [ih, List.drop_eq_getElem_cons h, ht]
    simp only [List.takeWhile_cons, isPostOp, if_true, foldPost, List.length_cons]
    exact Prod.ext rfl (by omega)
  · intro e index h hni hnd
    have hpost : isPostOp tokens[index] = false := by
      cases htt : tokens[index] <;>
        first
        | rfl
        | exact absurd htt hni
        | exact absurd htt hnd
    rw [parse_term_loop]
    simp only [h, reduceDIte]
    rw [List.drop_eq_getElem_cons h]
    simp only [List.takeWhile_cons, hpost, Bool.false_eq_true, if_false, foldPost,
      List.length_nil, Nat.add_zero]
  · intro e index h
    rw [parse_term_loop]
    simp only [h, reduceDIte]
    rw [List.drop_eq_nil_of_le (by omega)]
    simp [foldPost]

theorem parse_term_loop_ge (tokens : List Token) (e : Expression) (index : Nat) :
    index ≤ (parse_term_loop tokens e index).2 := by
  rw [parse_term_loop_spec]
  simp

theorem getIdx_some_lt {α : Type} {l : List α} {i : Nat} {a : α}
    (h : l[i]? = some a) : i < l.length := by
  by_contra hc
  push_neg at hc
  rw [List.getElem?_eq_none (by omega)] at h
  exact absurd h (by simp)

mutual

def parse_expression_aux (tokens : List Token) (index : Nat) :
    Except String (Expression × {j : Nat // index < j}) :=
  if h : index < tokens.length then
    match tokens[index] with
    | Token.Let =>
      (match parse_let_aux tokens (index + 1) with
       | .error e => .error e
       | .ok (e, ⟨j, hj⟩) => .ok (e, ⟨j, by omega⟩))
    | _ => parse_term_aux tokens index
  else parse_term_aux tokens index
termination_by (tokens.length - index, 2)
decreasing_by
· exact Prod.Lex.left _ _ (by omega)
· exact Prod.Lex.right _ (by omega)
· exact Prod.Lex.right _ (by omega)

def parse_let_aux (tokens : List Token) (index : Nat) :
    Except String (Expression × {j : Nat // index < j}) :=
  if h0 : index < tokens.length then
    match tokens[index] with
    | Token.Identifier name =>
      if h1 : index + 1 < tokens.length then
        match tokens[index + 1] with
        | Token.Assign =>
          (match parse_expression_aux tokens (index + 2) with
           | .error e => .error e
           | .ok (value_expr, ⟨body_start, hb⟩) =>
             if h2 : body_start < tokens.length then
               match tokens[body_start] with
               | Token.LineEnd =>
                 (match parse_expression_aux tokens (body_start + 1) with
                  | .error e => .error e
                  | .ok (body_expr, ⟨final_index, hf⟩) =>
                    .ok (.Let name value_expr body_expr, ⟨final_index, by omega⟩))
               | _ => .error "Expected \x27;\x27 at the end of let binding"
             else .error "Expected \x27;\x27 at the end of let binding")
        | _ => .error "Expected \x27=\x27 in let binding"
      else .error "Expected \x27=\x27 in let binding"
    | _ => .error "Expected identifier after \x27let\x27"
  else .error "Expected identifier after \x27let\x27"
termination_by (tokens.length - index, 3)
decreasing_by
· exact Prod.Lex.left _ _ (by omega)
· exact Prod.Lex.left _ _ (by omega)

def parse_term_aux (tokens : List Token) (index : Nat) :
    Except String (Expression × {j : Nat // index < j}) :=
  match parse_factor_aux tokens index with
  | .error e => .error e
  | .ok (e, ⟨j, hj⟩) =>
    .ok ((parse_term_loop tokens e j).1,
      ⟨(parse_term_loop tokens e j).2,
       Nat.lt_of_lt_of_le hj (parse_term_loop_ge tokens e j)⟩)
termination_by (tokens.length - index, 1)
decreasing_by
· exact Prod.Lex.right _ (by omega)

def parse_factor_aux (tokens : List Token) (index : Nat) :
    Except String (Expression × {j : Nat // index < j}) :=
  if h : index < tokens.length then
    match tokens[index] with
    | Token.Number value => .ok (.Number value, ⟨index + 1, Nat.lt_succ_self index⟩)
    | Token.Identifier name => .ok (.Identifier name, ⟨index + 1, Nat.lt_succ_self index⟩)
    | Token.LParen =>
      (match parse_expression_aux tokens (index + 1) with
       | .error e => .error e
       | .ok (e, ⟨next_index, hn⟩) =>
         (match tokens[next_index]? with
          | some Token.RParen => .ok (e, ⟨next_index + 1, by omega⟩)
          | _ => .error "Expected closing parenthesis"))
    | t => .error ("Unexpected token: " ++ tokenDebug t)
  else .error "Unexpected end of input"
termination_by (tokens.length - index, 0)
decreasing_by
· exact Prod.Lex.left _ _ (by omega)

end



/-- Rust fn parse_expression of parse.rs (proof component erased). -/
def parse_expression (tokens : List Token) (index : Nat) :
    Except String (Expression × Nat) :=
  match parse_expression_aux tokens index with
  | .ok (e, j) => .ok (e, j.val)
  | .error e => .error e

/-- Rust fn parse_let of parse.rs (proof component erased). -/
def parse_let (tokens : List Token) (index : Nat) :
    Except String (Expression × Nat) :=
  match parse_let_aux tokens index with
  | .ok (e, j) => .ok (e, j.val)
  | .error e => .error e

/-- Rust fn parse_term of parse.rs (proof component erased). -/
def parse_term (tokens : List Token) (index : Nat) :
    Except String (Expression × Nat) :=
  match parse_term_aux tokens index with
  | .ok (e, j) => .ok (e, j.val)
  | .error e => .error e

/-- Rust fn parse_factor of parse.rs (proof component erased). -/
def parse_factor (tokens : List Token) (index : Nat) :
    Except String (Expression × Nat) :=
  match parse_factor_aux tokens index with
  | .ok (e, j) => .ok (e, j.val)
  | .error e => .error e

/-- Rust fn parse of parse.rs: the top-level entry point discards the final
index and returns only the parsed expression. -/
def parse (tokens : List Token) : Except String Expression :=
  match parse_expression tokens 0 with
  | .ok (e, _) => .ok e
  | .error e => .error e

/-- Every slot stored in the environment is at least 1. This is the
well-formedness condition the specification builds into its data model
("mapping from identifier name to a positive integer slot index"). -/
def envPos (env : Env) : Prop := ∀ p ∈ env, 1 ≤ p.2

/-- True when the expression contains a Let binding of the given name. -/
def hasLetOf (name : String) (e : Expression) : Bool :=
  match e with
  | .Number _ => false
  | .Identifier _ => false
  | .Increment e1 => hasLetOf name e1
  | .Decrement e1 => hasLetOf name e1
  | .Let n v b => n = name || hasLetOf name v || hasLetOf name b

/-- Holds exactly for the five instruction shapes the code generator can
emit, with every stack offset strictly negative. -/
def goodInstr (ins : Instruction) : Bool :=
  match ins with
  | .Mov (.Registry .Rax) (.Constant _) => true
  | .Mov (.Registry .Rax) (.RegistryOffset .Rsp n) => decide (n < 0)
  | .Mov (.RegistryOffset .Rsp n) (.Registry .Rax) => decide (n < 0)
  | .Inc (.Registry .Rax) => true
  | .Dec (.Registry .Rax) => true
  | _ => false

/-! ## Environment lemmas -/

theorem envFind_insert (env : Env) (n m : String) (s : Int) :
    envFind (envInsert env n s) m = if n = m then some s else envFind env m := by
  induction env with
  | nil =>
    by_cases h : n = m <;> simp [envInsert, envFind, h]
  | cons p rest ih =>
    obtain ⟨pn, ps⟩ := p
    by_cases h1 : pn = n
    · subst h1
      by_cases h2 : pn = m <;> simp [envInsert, envFind, h2]
    · by_cases h2 : pn = m <;> by_cases h3 : n = m <;>
        simp_all [envInsert, envFind, h1, h2, h3, ih]

theorem envLength_insert_fresh (env : Env) (n : String) (s : Int)
    (h : envFind env n = none) :
    (envInsert env n s).length = env.length + 1 := by
  induction env with
  | nil => rfl
  | cons p rest ih =>
    obtain ⟨pn, ps⟩ := p
    by_cases h1 : pn = n
    · simp [envFind, h1] at h
    · simp only [envFind, h1, if_false] at h
      simp [envInsert, h1, ih h]

theorem envPos_find (env : Env) (n : String) (s : Int)
    (hpos : envPos env) (h : envFind env n = some s) : 1 ≤ s := by
  induction env with
  | nil => simp [envFind] at h
  | cons p rest ih =>
    obtain ⟨pn, ps⟩ := p
    by_cases h1 : pn = n
    · simp [envFind, h1] at h
      exact h ▸ hpos (pn, ps) (by simp)
    · simp only [envFind, h1, if_false] at h
      exact ih (fun q hq => hpos q (List.mem_cons_of_mem _ hq)) h

theorem envPos_insert (env : Env) (n : String) (s : Int)
    (hpos : envPos env) (hs : 1 ≤ s) : envPos (envInsert env n s) := by
  induction env with
  | nil => intro q hq; simp [envInsert] at hq; simp [hq, hs]
  | cons p rest ih =>
    obtain ⟨pn, ps⟩ := p
    by_cases h1 : pn = n
    · simp only [envInsert, h1, if_true]
      intro q hq
      rcases List.mem_cons.mp hq with h | h
      · simp [h, hs]
      · exact hpos q (List.mem_cons_of_mem _ h)
    · simp only [envInsert, h1, if_false]
      intro q hq
      rcases List.mem_cons.mp hq with h | h
      · exact h ▸ hpos (pn, ps) (by simp)
      · exact ih (fun r hr => hpos r (List.mem_cons_of_mem _ hr)) q h

/-! ## Code generator environment lemmas -/

theorem compile_envPos (e : Expression) (env : Env) (hpos : envPos env) :
    envPos (compile_expression e env).2 := by
  induction e generalizing env with
  | Number v => simpa [compile_expression] using hpos
  | Increment e ih =>
    have h := ih env hpos
    rcases hc : compile_expression e env with ⟨r, env1⟩
    rw [hc] at h
    cases r <;> simp [compile_expression, hc] <;> exact h
  | Decrement e ih =>
    have h := ih env hpos
    rcases hc : compile_expression e env with ⟨r, env1⟩
    rw [hc] at h
    cases r <;> simp [compile_expression, hc] <;> exact h
  | Identifier n =>
    rcases hf : envFind env n with _ | s <;> simp [compile_expression, hf] <;> exact hpos
  | Let n v b ihv ihb =>
    have hpos1 : envPos (envInsert env n ((env.length : Int) + 1)) :=
      envPos_insert env n _ hpos (by omega)
    have hv := ihv _ hpos1
    rcases hcv : compile_expression v (envInsert env n ((env.length : Int) + 1)) with ⟨rv, env2⟩
    rw [hcv] at hv
    cases rv with
    | error err => simp [compile_expression, add, hcv]; exact hv
    | ok instrs =>
      have hb := ihb env2 hv
      rcases hcb : compile_expression b env2 with ⟨rb, env3⟩
      rw [hcb] at hb
      cases rb <;> simp [compile_expression, add, hcv, hcb] <;> exact hb

theorem compile_find_isSome (e : Expression) (env : Env) (n : String)
    (h : (envFind env n).isSome) :
    (envFind (compile_expression e env).2 n).isSome := by
  induction e generalizing env with
  | Number v => simpa [compile_expression] using h
  | Increment e ih =>
    have hi := ih env h
    rcases hc : compile_expression e env with ⟨r, env1⟩
    rw [hc] at hi
    cases r <;> simp [compile_expression, hc] <;> exact hi
  | Decrement e ih =>
    have hi := ih env h
    rcases hc : compile_expression e env with ⟨r, env1⟩
    rw [hc] at hi
    cases r <;> simp [compile_expression, hc] <;> exact hi
  | Identifier m =>
    rcases hf : envFind env m with _ | s <;> simp [compile_expression, hf] <;> exact h
  | Let m v b ihv ihb =>
    have h1 : (envFind (envInsert env m ((env.length : Int) + 1)) n).isSome := by
      rw [envFind_insert]
      by_cases hmn : m = n <;> simp [hmn, h]
    have hv := ihv _ h1
    rcases hcv : compile_expression v (envInsert env m ((env.length : Int) + 1)) with ⟨rv, env2⟩
    rw [hcv] at hv
    cases rv with
    | error err => simp [compile_expression, add, hcv]; exact hv
    | ok instrs =>
      have hb := ihb env2 hv
      rcases hcb : compile_expression b env2 with ⟨rb, env3⟩
      rw [hcb] at hb
      cases rb <;> simp [compile_expression, add, hcv, hcb] <;> exact hb

theorem compile_find_of_no_let (e : Expression) (env : Env) (n : String)
    (h : hasLetOf n e = false) :
    envFind (compile_expression e env).2 n = envFind env n := by
  induction e generalizing env with
  | Number v => simp [compile_expression]
  | Increment e ih =>
    have hi := ih env (by simpa [hasLetOf] using h)
    rcases hc : compile_expression e env with ⟨r, env1⟩
    rw [hc] at hi
    cases r <;> simp [compile_expression, hc] <;> exact hi
  | Decrement e ih =>
    have hi := ih env (by simpa [hasLetOf] using h)
    rcases hc : compile_expression e env with ⟨r, env1⟩
    rw [hc] at hi
    cases r <;> simp [compile_expression, hc] <;> exact hi
  | Identifier m =>
    rcases hf : envFind env m with _ | s <;> simp [compile_expression, hf]
  | Let m v b ihv ihb =>
    simp only [hasLetOf, Bool.or_eq_false_iff, decide_eq_false_iff_not] at h
    obtain ⟨⟨hmn, hv0⟩, hb0⟩ := h
    have h1 : envFind (envInsert env m ((env.length : Int) + 1)) n = envFind env n := by
      rw [envFind_insert]; simp [hmn]
    have hv := ihv (envInsert env m ((env.length : Int) + 1)) hv0
    rcases hcv : compile_expression v (envInsert env m ((env.length : Int) + 1)) with ⟨rv, env2⟩
    rw [hcv] at hv
    cases rv with
    | error err => simp [compile_expression, add, hcv]; rw [hv, h1]
    | ok instrs =>
      have hb := ihb env2 hb0
      rcases hcb : compile_expression b env2 with ⟨rb, env3⟩
      rw [hcb] at hb
      cases rb <;> simp [compile_expression, add, hcv, hcb] <;> rw [hb, hv, h1]

theorem isAlpha_not_isDigit {c : Char} (h : c.isAlpha = true) : c.isDigit = false := by
  rw [Bool.eq_false_iff]
  intro hd
  simp [Char.isDigit] at hd
  simp [Char.isAlpha, Char.isUpper, Char.isLower] at h
  obtain ⟨hd1, hd2⟩ := hd
  have hna := @UInt32.toNat_le_of_le c.val 57 (by decide) hd2
  rcases h with ⟨h1, h2⟩ | ⟨h1, h2⟩
  · have := @UInt32.le_toNat_of_le c.val 65 (by decide) h1
    omega
  · have := @UInt32.le_toNat_of_le c.val 97 (by decide) h1
    omega

theorem spanDigits_digits_append (ds : List Char) (c : Char) (rest : List Char)
    (hds : ∀ d ∈ ds, d.isDigit = true) (hc : c.isDigit = false) :
    spanDigits (ds ++ c :: rest) = (ds, c :: rest) := by
  induction ds with
  | nil => simp [spanDigits, hc]
  | cons d ds2 ih =>
    have hd := hds d (by simp)
    simp [spanDigits, hd, ih (fun x hx => hds x (by simp [hx]))]

/-! ## Claim C8 groundwork: successful parses end within the token list,
and parse results are stable under adding a prefix and a non-postfix
suffix around the parsed region. -/

theorem parse_aux_le (n : Nat) :
    ∀ (ts : List Token) (index : Nat), ts.length - index ≤ n →
      ((∀ (e : Expression) (sj : {j : Nat // index < j}),
          parse_factor_aux ts index = .ok (e, sj) → sj.val ≤ ts.length) ∧
       (∀ (e : Expression) (sj : {j : Nat // index < j}),
          parse_term_aux ts index = .ok (e, sj) → sj.val ≤ ts.length) ∧
       (∀ (e : Expression) (sj : {j : Nat // index < j}),
          parse_let_aux ts index = .ok (e, sj) → sj.val ≤ ts.length) ∧
       (∀ (e : Expression) (sj : {j : Nat // index < j}),
          parse_expression_aux ts index = .ok (e, sj) → sj.val ≤ ts.length)) := by
  induction n using Nat.strong_induction_on with
  | _ n IH =>
    intro ts index hn
    have hfactor : ∀ (e : Expression) (sj : {j : Nat // index < j}),
        parse_factor_aux ts index = .ok (e, sj) → sj.val ≤ ts.length := by
      intro e sj hok
      obtain ⟨j0, hj0⟩ := sj
      rw [parse_factor_aux] at hok
      by_cases h : index < ts.length
      · rw [dif_pos h] at hok
        rcases hts : ts[index] with v | _ | _ | _ | _ | _ | _ | _ | nm
        · rw [hts] at hok
          simp at hok
          simp
          omega
        · rw [hts] at hok; simp at hok
        · rw [hts] at hok; simp at hok
        · rw [hts] at hok
          dsimp only [] at hok
          rcases heq : parse_expression_aux ts (index + 1) with er | ⟨e1, ⟨next, hnext⟩⟩
          · rw [heq] at hok
            simp at hok
          · rw [heq] at hok
            dsimp only [] at hok
            rcases hrp : ts[next]? with _ | t2
            · rw [hrp] at hok
              simp at hok
            · rw [hrp] at hok
              rcases t2 with _ | _ | _ | _ | _ | _ | _ | _ | _
              · simp at hok
              · simp at hok
              · simp at hok
              · simp at hok
              · simp at hok
                have := getIdx_some_lt hrp
                simp
                omega
              · simp at hok
              · simp at hok
              · simp at hok
              · simp at hok
        · rw [hts] at hok; simp at hok
        · rw [hts] at hok; simp at hok
        · rw [hts] at hok; simp at hok
        · rw [hts] at hok; simp at hok
        · rw [hts] at hok
          simp at hok
          simp
          omega
      · rw [dif_neg h] at hok
        simp at hok
    have hterm : ∀ (e : Expression) (sj : {j : Nat // index < j}),
        parse_term_aux ts index = .ok (e, sj) → sj.val ≤ ts.length := by
      intro e sj hok
      obtain ⟨j0, hj0⟩ := sj
      rw [parse_term_aux] at hok
      rcases heq : parse_factor_aux ts index with er | ⟨e1, ⟨j, hj⟩⟩
      · rw [heq] at hok
        simp at hok
      · rw [heq] at hok
        simp at hok
        obtain ⟨-, h2⟩ := hok
        have hjle : j ≤ ts.length := by
          have := hfactor e1 ⟨j, hj⟩ heq
          simpa using this
        have hloop : (parse_term_loop ts e1 j).2 ≤ ts.length := by
          rw [parse_term_loop_spec]
          have h1 : ((ts.drop j).takeWhile isPostOp).length ≤ (ts.drop j).length :=
            (List.takeWhile_sublist isPostOp).length_le
          simp at h1 ⊢
          omega
        simp
        omega
    have hlet : ∀ (e : Expression) (sj : {j : Nat // index < j}),
        parse_let_aux ts index = .ok (e, sj) → sj.val ≤ ts.length := by
      intro e sj hok
      obtain ⟨j0, hj0⟩ := sj
      rw [parse_let_aux] at hok
      by_cases h0 : index < ts.length
      · rw [dif_pos h0] at hok
        rcases hts : ts[index] with _ | _ | _ | _ | _ | _ | _ | _ | nm
        · (rw [hts] at hok; simp at hok)
        · (rw [hts] at hok; simp at hok)
        · (rw [hts] at hok; simp at hok)
        · (rw [hts] at hok; simp at hok)
        · (rw [hts] at hok; simp at hok)
        · (rw [hts] at hok; simp at hok)
        · (rw [hts] at hok; simp at hok)
        · (rw [hts] at hok; simp at hok)
        · rw [hts] at hok
          dsimp only [] at hok
          by_cases h1 : index + 1 < ts.length
          · rw [dif_pos h1] at hok
            rcases hts1 : ts[index + 1] with _ | _ | _ | _ | _ | _ | _ | _ | _
            · (rw [hts1] at hok; simp at hok)
            · (rw [hts1] at hok; simp at hok)
            · (rw [hts1] at hok; simp at hok)
            · (rw [hts1] at hok; simp at hok)
            · (rw [hts1] at hok; simp at hok)
            · rw [hts1] at hok
              dsimp only [] at hok
              rcases heqv : parse_expression_aux ts (index + 2) with er | ⟨v1, ⟨bs, hbs⟩⟩
              · rw [heqv] at hok
                simp at hok
              · rw [heqv] at hok
                dsimp only [] at hok
                by_cases h2 : bs < ts.length
                · rw [dif_pos h2] at hok
                  rcases hts2 : ts[bs] with _ | _ | _ | _ | _ | _ | _ | _ | _
                  · (rw [hts2] at hok; simp at hok)
                  · (rw [hts2] at hok; simp at hok)
                  · (rw [hts2] at hok; simp at hok)
                  · (rw [hts2] at hok; simp at hok)
                  · (rw [hts2] at hok; simp at hok)
                  · (rw [hts2] at hok; simp at hok)
                  · rw [hts2] at hok
                    dsimp only [] at hok
                    rcases heqb : parse_expression_aux ts (bs + 1) with er | ⟨b1, ⟨fi, hfi⟩⟩
                    · rw [heqb] at hok
                      simp at hok
                    · rw [heqb] at hok
                      simp at hok
                      have := (IH (ts.length - (bs + 1)) (by omega) ts (bs + 1)
                        (Nat.le_refl _)).2.2.2 b1 ⟨fi, hfi⟩ heqb
                      simp at this ⊢
                      omega
                  · (rw [hts2] at hok; simp at hok)
                  · (rw [hts2] at hok; simp at hok)
                · rw [dif_neg h2] at hok
                  simp at hok
            · (rw [hts1] at hok; simp at hok)
            · (rw [hts1] at hok; simp at hok)
            · (rw [hts1] at hok; simp at hok)
          · rw [dif_neg h1] at hok
            simp at hok
      · rw [dif_neg h0] at hok
        simp at hok
    have hexpr : ∀ (e : Expression) (sj : {j : Nat // index < j}),
        parse_expression_aux ts index = .ok (e, sj) → sj.val ≤ ts.length := by
      intro e sj hok
      obtain ⟨j0, hj0⟩ := sj
      rw [parse_expression_aux] at hok
      by_cases h : index < ts.length
      · rw [dif_pos h] at hok
        rcases hts : ts[index] with _ | _ | _ | _ | _ | _ | _ | _ | nm
        · (rw [hts] at hok; exact hterm e ⟨j0, hj0⟩ hok)
        · (rw [hts] at hok; exact hterm e ⟨j0, hj0⟩ hok)
        · (rw [hts] at hok; exact hterm e ⟨j0, hj0⟩ hok)
        · (rw [hts] at hok; exact hterm e ⟨j0, hj0⟩ hok)
        · (rw [hts] at hok; exact hterm e ⟨j0, hj0⟩ hok)
        · (rw [hts] at hok; exact hterm e ⟨j0, hj0⟩ hok)
        · (rw [hts] at hok; exact hterm e ⟨j0, hj0⟩ hok)
        · rw [hts] at hok
          dsimp only [] at hok
          rcases heq : parse_let_aux ts (index + 1) with er | ⟨e1, ⟨j, hj⟩⟩
          · rw [heq] at hok
            simp at hok
          · rw [heq] at hok
            simp at hok
            have := (IH (ts.length - (index + 1)) (by omega) ts (index + 1)
              (Nat.le_refl _)).2.2.1 e1 ⟨j, hj⟩ heq
            simp at this ⊢
            omega
        · (rw [hts] at hok; exact hterm e ⟨j0, hj0⟩ hok)
      · rw [dif_neg h] at hok
        exact hterm e ⟨j0, hj0⟩ hok
    exact ⟨hfactor, hterm, hlet, hexpr⟩

theorem ok_val_eq {i : Nat} (e : Expression) (a b : {j : Nat // i < j}) (h : a.val = b.val) :
    (Except.ok (e, a) : Except String (Expression × {j : Nat // i < j})) = .ok (e, b) := by
  obtain ⟨av, ap⟩ := a
  obtain ⟨bv, bp⟩ := b
  simp at h
  subst h
  rfl

theorem drop_len_add (pre xs : List Token) (i : Nat) :
    (pre ++ xs).drop (pre.length + i) = xs.drop i := by
  induction pre with
  | nil => simp
  | cons a l ih => simpa [Nat.succ_add] using ih

theorem drop_append_le (ts post : List Token) (i : Nat) (hi : i ≤ ts.length) :
    (ts ++ post).drop i = ts.drop i ++ post := by
  induction ts generalizing i with
  | nil =>
    simp at hi
    simp [hi]
  | cons a l ih =>
    cases i with
    | zero => simp
    | succ k => simpa using ih k (by simpa using hi)

theorem getElem_q_prefix_add (pre xs : List Token) (k : Nat) :
    (pre ++ xs)[pre.length + k]? = xs[k]? := by
  induction pre with
  | nil => simp
  | cons a l ih => simpa [Nat.succ_add] using ih

theorem getElem_q_append_lt (xs post : List Token) (k : Nat) (hk : k < xs.length) :
    (xs ++ post)[k]? = xs[k]? := by
  induction xs generalizing k with
  | nil => simp at hk
  | cons a l ih =>
    cases k with
    | zero => simp
    | succ m => simpa using ih m (by simpa using hk)

theorem getT_q (pre ts post : List Token) (k : Nat) (hk : k < ts.length) :
    (pre ++ ts ++ post)[pre.length + k]? = ts[k]? := by
  rw [List.append_assoc, getElem_q_prefix_add, getElem_q_append_lt ts post k hk]

theorem getT (pre ts post : List Token) (k : Nat) (hk : k < ts.length)
    (hb : pre.length + k < (pre ++ ts ++ post).length) :
    GetElem.getElem (pre ++ ts ++ post) (pre.length + k) hb = GetElem.getElem ts k hk := by
  have h := getT_q pre ts post k hk
  rw [List.getElem?_eq_getElem hb, List.getElem?_eq_getElem hk] at h
  exact Option.some.inj h

theorem takeWhile_append_stop (p : Token → Bool) (xs ys : List Token)
    (hys : ys.takeWhile p = []) :
    (xs ++ ys).takeWhile p = xs.takeWhile p := by
  induction xs with
  | nil => simpa using hys
  | cons a l ih =>
    by_cases hpa : p a <;> simp [List.takeWhile_cons, hpa, ih]

theorem loop_transport (pre post ts : List Token)
    (hpost : post.takeWhile isPostOp = []) (e : Expression) (i : Nat)
    (hi : i ≤ ts.length) :
    parse_term_loop (pre ++ ts ++ post) e (pre.length + i) =
      ((parse_term_loop ts e i).1, pre.length + (parse_term_loop ts e i).2) := by
  rw [parse_term_loop_spec, parse_term_loop_spec]
  rw [List.append_assoc, drop_len_add, drop_append_le ts post i hi,
    takeWhile_append_stop isPostOp _ _ hpost]
  exact Prod.ext rfl (by omega)

theorem parse_aux_transport (pre post : List Token)
    (hpost : post.takeWhile isPostOp = []) (n : Nat) :
    ∀ (ts : List Token) (index : Nat), ts.length - index ≤ n →
      ((∀ (e : Expression) (sj : {j : Nat // index < j}),
          parse_factor_aux ts index = .ok (e, sj) →
          parse_factor_aux (pre ++ ts ++ post) (pre.length + index) =
            .ok (e, ⟨pre.length + sj.val, Nat.add_lt_add_left sj.2 pre.length⟩)) ∧
       (∀ (e : Expression) (sj : {j : Nat // index < j}),
          parse_term_aux ts index = .ok (e, sj) →
          parse_term_aux (pre ++ ts ++ post) (pre.length + index) =
            .ok (e, ⟨pre.length + sj.val, Nat.add_lt_add_left sj.2 pre.length⟩)) ∧
       (∀ (e : Expression) (sj : {j : Nat // index < j}),
          parse_let_aux ts index = .ok (e, sj) →
          parse_let_aux (pre ++ ts ++ post) (pre.length + index) =
            .ok (e, ⟨pre.length + sj.val, Nat.add_lt_add_left sj.2 pre.length⟩)) ∧
       (∀ (e : Expression) (sj : {j : Nat // index < j}),
          parse_expression_aux ts index = .ok (e, sj) →
          parse_expression_aux (pre ++ ts ++ post) (pre.length + index) =
            .ok (e, ⟨pre.length + sj.val, Nat.add_lt_add_left sj.2 pre.length⟩))) := by
  induction n using Nat.strong_induction_on with
  | _ n IH =>
    intro ts index hn
    have hfactorT : ∀ (e : Expression) (sj : {j : Nat // index < j}),
        parse_factor_aux ts index = .ok (e, sj) →
        parse_factor_aux (pre ++ ts ++ post) (pre.length + index) =
          .ok (e, ⟨pre.length + sj.val, Nat.add_lt_add_left sj.2 pre.length⟩) := by
      intro e sj hok
      obtain ⟨j0, hj0⟩ := sj
      rw [parse_factor_aux] at hok
      by_cases h : index < ts.length
      · rw [dif_pos h] at hok
        have hTb : pre.length + index < (pre ++ ts ++ post).length := by
          simp
          omega
        rw [parse_factor_aux, dif_pos hTb, getT pre ts post index h hTb]
        rcases hts : ts[index] with v | _ | _ | _ | _ | _ | _ | _ | nm
        · rw [hts] at hok
          simp at hok
          obtain ⟨he, hj⟩ := hok
          subst he
          dsimp only []
          exact ok_val_eq _ _ _ (by simp; omega)
        · rw [hts] at hok; simp at hok
        · rw [hts] at hok; simp at hok
        · rw [hts] at hok
          dsimp only [] at hok ⊢
          rcases heq : parse_expression_aux ts (index + 1) with er | ⟨e1, ⟨next, hnext⟩⟩
          · rw [heq] at hok
            simp at hok
          · rw [heq] at hok
            dsimp only [] at hok
            have hT1 : parse_expression_aux (pre ++ ts ++ post) (pre.length + index + 1) =
                .ok (e1, ⟨pre.length + next, by omega⟩) :=
              (IH (ts.length - (index + 1)) (by omega) ts (index + 1)
                (Nat.le_refl _)).2.2.2 e1 ⟨next, hnext⟩ heq
            rw [hT1]
            dsimp only []
            rcases hrp : ts[next]? with _ | t2
            · rw [hrp] at hok
              simp at hok
            · rw [hrp] at hok
              have hnlt : next < ts.length := getIdx_some_lt hrp
              have hTrp : (pre ++ ts ++ post)[pre.length + next]? = some t2 := by
                rw [getT_q pre ts post next hnlt, hrp]
              rw [hTrp]
              rcases t2 with _ | _ | _ | _ | _ | _ | _ | _ | _
              · simp at hok
              · simp at hok
              · simp at hok
              · simp at hok
              · simp at hok
                obtain ⟨he, hj⟩ := hok
                subst he
                dsimp only []
                exact ok_val_eq _ _ _ (by simp; omega)
              · simp at hok
              · simp at hok
              · simp at hok
              · simp at hok
        · rw [hts] at hok; simp at hok
        · rw [hts] at hok; simp at hok
        · rw [hts] at hok; simp at hok
        · rw [hts] at hok; simp at hok
        · rw [hts] at hok
          simp at hok
          obtain ⟨he, hj⟩ := hok
          subst he
          dsimp only []
          exact ok_val_eq _ _ _ (by simp; omega)
      · rw [dif_neg h] at hok
        simp at hok
    have htermT : ∀ (e : Expression) (sj : {j : Nat // index < j}),
        parse_term_aux ts index = .ok (e, sj) →
        parse_term_aux (pre ++ ts ++ post) (pre.length + index) =
          .ok (e, ⟨pre.length + sj.val, Nat.add_lt_add_left sj.2 pre.length⟩) := by
      intro e sj hok
      obtain ⟨j0, hj0⟩ := sj
      rw [parse_term_aux] at hok
      rcases heq : parse_factor_aux ts index with er | ⟨e1, ⟨j, hj⟩⟩
      · rw [heq] at hok
        simp at hok
      · rw [heq] at hok
        simp at hok
        obtain ⟨he, hj2⟩ := hok
        have hfac := hfactorT e1 ⟨j, hj⟩ heq
        rw [parse_term_aux, hfac]
        dsimp only []
        have hjle : j ≤ ts.length := by
          have := (parse_aux_le (ts.length - index) ts index (Nat.le_refl _)).1
            e1 ⟨j, hj⟩ heq
          simpa using this
        have hlt := loop_transport pre post ts hpost e1 j hjle
        have hfst : (parse_term_loop (pre ++ ts ++ post) e1 (pre.length + j)).1 = e := by
          rw [hlt]
          exact he
        have hsnd : (parse_term_loop (pre ++ ts ++ post) e1 (pre.length + j)).2 =
            pre.length + j0 := by
          rw [hlt]
          dsimp only []
          omega
        exact congrArg Except.ok (Prod.ext hfst (Subtype.ext (by simpa using hsnd)))
    have hletT : ∀ (e : Expression) (sj : {j : Nat // index < j}),
        parse_let_aux ts index = .ok (e, sj) →
        parse_let_aux (pre ++ ts ++ post) (pre.length + index) =
          .ok (e, ⟨pre.length + sj.val, Nat.add_lt_add_left sj.2 pre.length⟩) := by
      intro e sj hok
      obtain ⟨j0, hj0⟩ := sj
      rw [parse_let_aux] at hok
      by_cases h0 : index < ts.length
      · rw [dif_pos h0] at hok
        have hTb : pre.length + index < (pre ++ ts ++ post).length := by
          simp
          omega
        rw [parse_let_aux, dif_pos hTb, getT pre ts post index h0 hTb]
        rcases hts : ts[index] with _ | _ | _ | _ | _ | _ | _ | _ | nm
        · rw [hts] at hok; simp at hok
        · rw [hts] at hok; simp at hok
        · rw [hts] at hok; simp at hok
        · rw [hts] at hok; simp at hok
        · rw [hts] at hok; simp at hok
        · rw [hts] at hok; simp at hok
        · rw [hts] at hok; simp at hok
        · rw [hts] at hok; simp at hok
        · rw [hts] at hok
          dsimp only [] at hok ⊢
          by_cases h1 : index + 1 < ts.length
          · rw [dif_pos h1] at hok
            have hT1 : pre.length + index + 1 < (pre ++ ts ++ post).length := by
              simp
              omega
            rw [dif_pos hT1]
            have hg1 : GetElem.getElem (pre ++ ts ++ post) (pre.length + index + 1)
                  (by simp; omega) =
                GetElem.getElem ts (index + 1) h1 :=
              getT pre ts post (index + 1) h1 (by simp; omega)
            rw [hg1]
            rcases hts1 : ts[index + 1] with _ | _ | _ | _ | _ | _ | _ | _ | _
            · rw [hts1] at hok; simp at hok
            · rw [hts1] at hok; simp at hok
            · rw [hts1] at hok; simp at hok
            · rw [hts1] at hok; simp at hok
            · rw [hts1] at hok; simp at hok
            · rw [hts1] at hok
              dsimp only [] at hok ⊢
              rcases heqv : parse_expression_aux ts (index + 2) with er | ⟨v1, ⟨bs, hbs⟩⟩
              · rw [heqv] at hok
                simp at hok
              · rw [heqv] at hok
                dsimp only [] at hok
                have hTv : parse_expression_aux (pre ++ ts ++ post)
                      (pre.length + index + 2) =
                    .ok (v1, ⟨pre.length + bs, by omega⟩) :=
                  (IH (ts.length - (index + 2)) (by omega) ts (index + 2)
                    (Nat.le_refl _)).2.2.2 v1 ⟨bs, hbs⟩ heqv
                rw [hTv]
                dsimp only []
                by_cases h2 : bs < ts.length
                · rw [dif_pos h2] at hok
                  have hT2 : pre.length + bs < (pre ++ ts ++ post).length := by
                    simp
                    omega
                  rw [dif_pos hT2, getT pre ts post bs h2 hT2]
                  rcases hts2 : ts[bs] with _ | _ | _ | _ | _ | _ | _ | _ | _
                  · rw [hts2] at hok; simp at hok
                  · rw [hts2] at hok; simp at hok
                  · rw [hts2] at hok; simp at hok
                  · rw [hts2] at hok; simp at hok
                  · rw [hts2] at hok; simp at hok
                  · rw [hts2] at hok; simp at hok
                  · rw [hts2] at hok
                    dsimp only [] at hok ⊢
                    rcases heqb : parse_expression_aux ts (bs + 1) with er | ⟨b1, ⟨fi, hfi⟩⟩
                    · rw [heqb] at hok
                      simp at hok
                    · rw [heqb] at hok
                      simp at hok
                      obtain ⟨he, hj⟩ := hok
                      have hTbdy : parse_expression_aux (pre ++ ts ++ post)
                            (pre.length + bs + 1) =
                          .ok (b1, ⟨pre.length + fi, by omega⟩) :=
                        (IH (ts.length - (bs + 1)) (by omega) ts (bs + 1)
                          (Nat.le_refl _)).2.2.2 b1 ⟨fi, hfi⟩ heqb
                      rw [hTbdy]
                      dsimp only []
                      subst he
                      exact ok_val_eq _ _ _ (by simp; omega)
                  · rw [hts2] at hok; simp at hok
                  · rw [hts2] at hok; simp at hok
                · rw [dif_neg h2] at hok
                  simp at hok
            · rw [hts1] at hok; simp at hok
            · rw [hts1] at hok; simp at hok
            · rw [hts1] at hok; simp at hok
          · rw [dif_neg h1] at hok
            simp at hok
      · rw [dif_neg h0] at hok
        simp at hok
    have hexprT : ∀ (e : Expression) (sj : {j : Nat // index < j}),
        parse_expression_aux ts index = .ok (e, sj) →
        parse_expression_aux (pre ++ ts ++ post) (pre.length + index) =
          .ok (e, ⟨pre.length + sj.val, Nat.add_lt_add_left sj.2 pre.length⟩) := by
      intro e sj hok
      obtain ⟨j0, hj0⟩ := sj
      rw [parse_expression_aux] at hok
      by_cases h : index < ts.length
      · rw [dif_pos h] at hok
        have hTb : pre.length + index < (pre ++ ts ++ post).length := by
          simp
          omega
        rw [parse_expression_aux, dif_pos hTb, getT pre ts post index h hTb]
        rcases hts : ts[index] with _ | _ | _ | _ | _ | _ | _ | _ | nm
        · rw [hts] at hok
          exact htermT e ⟨j0, hj0⟩ hok
        · rw [hts] at hok
          exact htermT e ⟨j0, hj0⟩ hok
        · rw [hts] at hok
          exact htermT e ⟨j0, hj0⟩ hok
        · rw [hts] at hok
          exact htermT e ⟨j0, hj0⟩ hok
        · rw [hts] at hok
          exact htermT e ⟨j0, hj0⟩ hok
        · rw [hts] at hok
          exact htermT e ⟨j0, hj0⟩ hok
        · rw [hts] at hok
          exact htermT e ⟨j0, hj0⟩ hok
        · rw [hts] at hok
          dsimp only [] at hok ⊢
          rcases heq : parse_let_aux ts (index + 1) with er | ⟨e1, ⟨j, hj⟩⟩
          · rw [heq] at hok
            simp at hok
          · rw [heq] at hok
            simp at hok
            obtain ⟨he, hj2⟩ := hok
            have hTl : parse_let_aux (pre ++ ts ++ post) (pre.length + index + 1) =
                .ok (e1, ⟨pre.length + j, by omega⟩) :=
              (IH (ts.length - (index + 1)) (by omega) ts (index + 1)
                (Nat.le_refl _)).2.2.1 e1 ⟨j, hj⟩ heq
            rw [hTl]
            dsimp only []
            subst he
            exact ok_val_eq _ _ _ (by simp; omega)
        · rw [hts] at hok
          exact htermT e ⟨j0, hj0⟩ hok
      · rw [dif_neg h] at hok
        rw [parse_term_aux, parse_factor_aux, dif_neg h] at hok
        simp at hok
    exact ⟨hfactorT, htermT, hletT, hexprT⟩

/-! ## Claim C1: visibility of a let-bound name inside its own initializer -/

/-- C1 counterexample: compiling Let("x", Identifier("x"), Number(0)) in the
empty environment succeeds, with the initializer occurrence of x resolving to
the slot the Let itself just assigned (slot 1), instead of failing as unbound
as the claim requires. -/
theorem c1_counterexample :
    compile_expression (.Let "x" (.Identifier "x") (.Number 0)) [] =
      (.ok [.Mov (.Registry .Rax) (.RegistryOffset .Rsp (-1)),
            .Mov (.RegistryOffset .Rsp (-1)) (.Registry .Rax),
            .Mov (.Registry .Rax) (.Constant 0)], [("x", 1)]) := rfl

/-- C1 amended: compile_expression adds the binding before compiling the
initializer, so for every name and every environment an occurrence of the
bound name inside its own initializer resolves to the newly assigned slot
(environment size + 1), never to an earlier binding and never as unbound. -/
theorem c1_initializer_sees_new_binding (name : String) (env : Env) :
    compile_expression (.Let name (.Identifier name) (.Number 0)) env =
      (.ok [.Mov (.Registry .Rax) (.RegistryOffset .Rsp (-((env.length : Int) + 1))),
            .Mov (.RegistryOffset .Rsp (-((env.length : Int) + 1))) (.Registry .Rax),
            .Mov (.Registry .Rax) (.Constant 0)],
       envInsert env name ((env.length : Int) + 1)) := by
  simp [compile_expression, add, envFind_insert]

/-! ## Claim C2: slot numbers assigned by successive add operations -/

/-- C2 counterexample: adding x, y, x, z in that order assigns slots
1, 2, 3, 3 — the last two adds receive the same slot, so the slots assigned
by successive add operations are not strictly increasing. -/
theorem c2_counterexample :
    (addAll ["x", "y", "x", "z"] []).1 = [1, 2, 3, 3] ∧
      ¬ List.Chain' (· < ·) (addAll ["x", "y", "x", "z"] []).1 := by
  refine ⟨rfl, ?_⟩
  intro hch
  have h : (addAll ["x", "y", "x", "z"] []).1 = ([1, 2, 3, 3] : List Int) := rfl
  rw [h] at hch
  simp only [List.chain'_cons, List.chain'_singleton, and_true] at hch
  omega

/-- C2 amended: as long as every added name is new to the environment the
slots assigned by successive add operations are strictly increasing starting
at environment size + 1 (so starting at 1 on a fresh environment); and
binding x, then y, then rebinding x yields slots 1, 2, 3 with x afterwards
mapped to slot 3, not slot 1. After such a rebinding a later add can repeat
a slot, because the rebinding does not grow the map. -/
theorem c2_slots_increasing :
    (∀ (names : List String) (env : Env), names.Nodup →
        (∀ n ∈ names, envFind env n = none) →
        (addAll names env).1 =
          (List.range names.length).map
            (fun (k : Nat) => (env.length : Int) + 1 + (k : Int))) ∧
      addAll ["x", "y", "x"] [] = ([1, 2, 3], [("x", 3), ("y", 2)]) ∧
      envFind (addAll ["x", "y", "x"] []).2 "x" = some 3 := by
  refine ⟨?_, rfl, rfl⟩
  intro names
  induction names with
  | nil => intro env _ _; simp [addAll]
  | cons n rest ih =>
    intro env hnd hf
    have hfresh : envFind env n = none := hf n (by simp)
    have hlen : (envInsert env n ((env.length : Int) + 1)).length = env.length + 1 :=
      envLength_insert_fresh env n _ hfresh
    have hrest : ∀ m ∈ rest, envFind (envInsert env n ((env.length : Int) + 1)) m = none := by
      intro m hm
      rw [envFind_insert]
      have hne : ¬ n = m := by
        intro he; subst he; exact (List.nodup_cons.mp hnd).1 hm
      simp [hne, hf m (List.mem_cons_of_mem _ hm)]
    have hr := ih (envInsert env n ((env.length : Int) + 1)) (List.nodup_cons.mp hnd).2 hrest
    simp only [addAll, add]
    rw [hr, hlen, List.length_cons, List.range_succ_eq_map]
    simp only [List.map_cons, List.map_map, Nat.cast_zero, Function.comp]
    refine List.cons_eq_cons.mpr ⟨by omega, ?_⟩
    exact List.map_congr_left (fun k hk => by
      simp only [Function.comp_apply]
      omega)

/-- C2 witness: two distinct fresh names added to the empty environment get
the strictly increasing slots 1, 2. -/
theorem c2_slots_increasing_witness :
    (addAll ["a", "b"] []).1 =
      (List.range (["a", "b"] : List String).length).map
        (fun (k : Nat) => ((([] : Env).length : Int) + 1 + (k : Int))) :=
  c2_slots_increasing.1 ["a", "b"] [] (by decide) (by decide)

/-! ## Claim C3: digit-then-letter adjacency -/

/-- C3 counterexample: a minus-signed number immediately followed by an
alphabetic character is not rejected: tokenize("-123a") succeeds, producing
the Number -123 followed by the Identifier a, because the negative-number
path of parse_minus has no letter-adjacency check. -/
theorem c3_counterexample :
    tokenize "-123a" = .ok [.Number (-123), .Identifier "a"] := by
  simp [tokenize, tokenize_aux, parse_number, parse_minus, parse_identifier_or_keyword,
    spanDigits, spanWord, natOfDigits]

/-- C3 amended: a Number written without a minus sign that is immediately
followed by an alphabetic character makes tokenize fail (for any digit run,
any following alphabetic character, and any remaining input), but a Number
written with a leading minus sign is not checked: the digits are consumed
into a negative Number token and scanning continues with the alphabetic
character, so "123a" is rejected while "-123a" is accepted as
[Number(-123), Identifier("a")]. -/
theorem c3_number_letter_adjacency :
    (∀ (d : Char) (ds : List Char) (c : Char) (rest : List Char),
        d.isDigit = true → (∀ x ∈ ds, x.isDigit = true) → c.isAlpha = true →
        ∃ msg, tokenize_aux (d :: (ds ++ c :: rest)) = .error msg) ∧
      tokenize "-123a" = .ok [.Number (-123), .Identifier "a"] := by
  constructor
  · intro d ds c rest hd hds hc
    have hc2 : c.isDigit = false := isAlpha_not_isDigit hc
    have hspan : spanDigits (d :: (ds ++ c :: rest)) = (d :: ds, c :: rest) := by
      have hall : ∀ x ∈ d :: ds, x.isDigit = true := by
        intro x hx
        rcases List.mem_cons.mp hx with hx1 | hx1
        · exact hx1 ▸ hd
        · exact hds x hx1
      simpa using spanDigits_digits_append (d :: ds) c rest hall hc2
    have hpn : parse_number (d :: (ds ++ c :: rest)) =
        .error ("Invalid sequence: Number \x27" ++ String.mk (d :: ds)
          ++ "\x27 followed by identifier starting with \x27" ++ String.mk [c] ++ "\x27") := by
      simp only [parse_number, hspan, List.head?_cons, hc, if_true]
    refine ⟨"Invalid sequence: Number \x27" ++ String.mk (d :: ds)
      ++ "\x27 followed by identifier starting with \x27" ++ String.mk [c] ++ "\x27", ?_⟩
    rw [tokenize_aux]
    simp only [hd, reduceDIte]
    split
    · rename_i e hn
      rw [hpn] at hn
      injection hn with h1
      rw [h1]
    · rename_i t rest2 hn
      rw [hpn] at hn
      simp at hn
  · simp [tokenize, tokenize_aux, parse_number, parse_minus, parse_identifier_or_keyword,
      spanDigits, spanWord, natOfDigits]

/-- C3 witness: the digit 1 followed by the letter a is rejected by the
tokenizer. -/
theorem c3_number_letter_adjacency_witness :
    ∃ msg, tokenize_aux ('1' :: ([] ++ 'a' :: [])) = .error msg :=
  c3_number_letter_adjacency.1 '1' [] 'a' [] (by decide) (by simp) (by decide)

/-! ## Claim C4: failure on unbound identifiers -/

/-- C4 counterexample: compiling Identifier("x") and Identifier("y") in the
empty environment both fail with the very same error value, the unit error
of the Rust Result type Err(()); the error therefore cannot carry the
identifier name, contrary to the claim that it is UnboundIdentifier(name). -/
theorem c4_counterexample :
    compile_expression (.Identifier "x") [] = (.error (), []) ∧
      compile_expression (.Identifier "y") [] = compile_expression (.Identifier "x") [] :=
  ⟨rfl, rfl⟩

/-- C4 amended: for every name not bound in the environment, compiling
Identifier(name) fails with the compiler's error value (the unit error of
Result<Vec<Instruction>, ()>, which carries no name), and such an error
propagates unchanged through enclosing Increment, Decrement and Let
expressions, with no partial instruction list returned. -/
theorem c4_unbound_error :
    (∀ (name : String) (env : Env), envFind env name = none →
        compile_expression (.Identifier name) env = (.error (), env)) ∧
      (∀ (e : Expression) (env renv : Env),
          compile_expression e env = (.error (), renv) →
          compile_expression (.Increment e) env = (.error (), renv) ∧
            compile_expression (.Decrement e) env = (.error (), renv)) ∧
      (∀ (name : String) (value body : Expression) (env renv : Env),
          compile_expression value (add name env).2 = (.error (), renv) →
          compile_expression (.Let name value body) env = (.error (), renv)) ∧
      (∀ (name : String) (value body : Expression) (env env2 renv : Env)
          (instrs : List Instruction),
          compile_expression value (add name env).2 = (.ok instrs, env2) →
          compile_expression body env2 = (.error (), renv) →
          compile_expression (.Let name value body) env = (.error (), renv)) := by
  refine ⟨?_, ?_, ?_, ?_⟩
  · intro name env h
    simp [compile_expression, h]
  · intro e env renv h
    constructor <;> simp [compile_expression, h]
  · intro name value body env renv h
    simp only [add] at h
    simp [compile_expression, add, h]
  · intro name value body env env2 renv instrs hv hb
    simp only [add] at hv
    simp [compile_expression, add, hv, hb]

/-- C4 witness: compiling Identifier("x") in the empty environment fails
with the unit error and leaves the environment unchanged. -/
theorem c4_unbound_error_witness :
    compile_expression (.Identifier "x") [] = (.error (), []) :=
  c4_unbound_error.1 "x" [] rfl

/-! ## Claim C5: trailing tokens are ignored by the top-level parse -/

/-- C5: whenever a prefix of the token sequence parses to an expression,
the top-level parse returns that expression, even when the next index lies
strictly inside the token sequence, i.e. tokens remain unconsumed. -/
theorem c5_trailing_tokens_ignored (tokens : List Token) (e : Expression) (i : Nat)
    (h : parse_expression tokens 0 = .ok (e, i)) (hi : i < tokens.length) :
    parse tokens = .ok e := by
  simp [parse, h]

/-- C5 witness: [Number 5, Number 6] parses to Number 5 with the trailing
Number 6 silently ignored. -/
theorem c5_trailing_tokens_ignored_witness :
    parse [Token.Number 5, Token.Number 6] = .ok (.Number 5) :=
  c5_trailing_tokens_ignored [Token.Number 5, Token.Number 6] (.Number 5) 1
    (by simp [parse_expression, parse_expression_aux, parse_term_aux, parse_factor_aux,
      parse_term_loop])
    (by decide)

/-! ## Claim C6: the let x = 420; x++ scenario -/

/-- C6: the full pipeline on source "let x = 420; x++": tokenizing, parsing,
compiling from a fresh environment to exactly the four expected
instructions, and rendering them to exactly the four expected lines with
the negative offset printed literally after a plus sign. -/
theorem c6_let_scenario :
    tokenize "let x = 420; x++" =
      .ok [.Let, .Identifier "x", .Assign, .Number 420, .LineEnd, .Identifier "x",
        .Increment] ∧
      parse [.Let, .Identifier "x", .Assign, .Number 420, .LineEnd, .Identifier "x",
          .Increment] =
        .ok (.Let "x" (.Number 420) (.Increment (.Identifier "x"))) ∧
      compile_expression (.Let "x" (.Number 420) (.Increment (.Identifier "x"))) [] =
        (.ok [.Mov (.Registry .Rax) (.Constant 420),
              .Mov (.RegistryOffset .Rsp (-1)) (.Registry .Rax),
              .Mov (.Registry .Rax) (.RegistryOffset .Rsp (-1)),
              .Inc (.Registry .Rax)], [("x", 1)]) ∧
      asm_to_string [.Mov (.Registry .Rax) (.Constant 420),
          .Mov (.RegistryOffset .Rsp (-1)) (.Registry .Rax),
          .Mov (.Registry .Rax) (.RegistryOffset .Rsp (-1)),
          .Inc (.Registry .Rax)] =
        "mov rax, 420\nmov rsp + -1, rax\nmov rax, rsp + -1\ninc rax" := by
  refine ⟨?_, ?_, rfl, by decide⟩
  · simp [tokenize, tokenize_aux, parse_number, parse_minus, parse_plus,
      parse_identifier_or_keyword, spanDigits, spanWord, natOfDigits]
  · simp [parse, parse_expression, parse_expression_aux, parse_let_aux, parse_term_aux,
      parse_factor_aux, parse_term_loop]

/-! ## Claim C7: postfix chains fold left onto the preceding factor -/

/-- C7: after a factor is parsed ending at index i, parse_term folds the
maximal run of postfix increment and decrement tokens starting at i
left-to-right onto that factor, and stops exactly at the end of that run,
consuming no additional factor; in particular the tokens of "5++--" parse
to Decrement(Increment(Number(5))). -/
theorem c7_postfix_chain :
    (∀ (tokens : List Token) (index : Nat) (e : Expression) (i : Nat),
        parse_factor tokens index = .ok (e, i) →
        parse_term tokens index =
          .ok (foldPost e ((tokens.drop i).takeWhile isPostOp),
               i + ((tokens.drop i).takeWhile isPostOp).length)) ∧
      tokenize "5++--" = .ok [.Number 5, .Increment, .Decrement] ∧
      parse [.Number 5, .Increment, .Decrement] =
        .ok (.Decrement (.Increment (.Number 5))) := by
  refine ⟨?_, ?_, ?_⟩
  · intro tokens index e i h
    rcases ha : parse_factor_aux tokens index with e1 | ⟨e2, ⟨j, hj⟩⟩
    · simp [parse_factor, ha] at h
    · simp [parse_factor, ha] at h
      obtain ⟨he, hi⟩ := h
      subst he
      subst hi
      simp [parse_term, parse_term_aux, ha, parse_term_loop_spec]
  · simp [tokenize, tokenize_aux, parse_number, parse_minus, parse_plus,
      parse_identifier_or_keyword, spanDigits, spanWord, natOfDigits]
  · simp [parse, parse_expression, parse_expression_aux, parse_term_aux, parse_factor_aux,
      parse_term_loop]

/-- C7 witness: with the factor Number 5 parsed at index 1, the following
run ++ -- is folded onto it, ending at index 3. -/
theorem c7_postfix_chain_witness :
    parse_term [Token.Number 5, Token.Increment, Token.Decrement] 0 =
      .ok (foldPost (.Number 5)
            ((([Token.Number 5, Token.Increment, Token.Decrement].drop 1).takeWhile isPostOp)),
           1 + (([Token.Number 5, Token.Increment, Token.Decrement].drop 1).takeWhile
             isPostOp).length) :=
  c7_postfix_chain.1 [Token.Number 5, Token.Increment, Token.Decrement] 0 (.Number 5) 1
    (by simp [parse_factor, parse_factor_aux])

/-! ## Claim C8: parentheses are semantically transparent -/

/-- C8: for every token sequence that parses exactly to an expression,
wrapping it in a matched LParen/RParen pair parses to the very same AST as
the unwrapped sequence; no distinct AST node is produced for the grouping.
In particular parse("(5)") = parse("5"). -/
theorem c8_parens_transparent (ts : List Token) (e : Expression)
    (h : parse_expression ts 0 = .ok (e, ts.length)) :
    parse (Token.LParen :: ts ++ [Token.RParen]) = .ok e ∧ parse ts = .ok e := by
  constructor
  · rcases ha : parse_expression_aux ts 0 with er | ⟨e1, ⟨j, hj⟩⟩
    · simp [parse_expression, ha] at h
    · simp [parse_expression, ha] at h
      obtain ⟨he, hjl⟩ := h
      subst he
      subst hjl
      have hpostw : (List.takeWhile isPostOp [Token.RParen]) = [] := rfl
      have hT := (parse_aux_transport [Token.LParen] [Token.RParen] hpostw
        (ts.length - 0) ts 0 (Nat.le_refl _)).2.2.2 e1 ⟨ts.length, hj⟩ ha
      have hT1 : parse_expression_aux (Token.LParen :: ts ++ [Token.RParen]) 1 =
          .ok (e1, ⟨1 + ts.length, by omega⟩) := hT
      have hrp0 : (ts ++ [Token.RParen])[ts.length]? = some Token.RParen := by
        have := getElem_q_prefix_add ts [Token.RParen] 0
        simpa using this
      have hrp : (Token.LParen :: ts ++ [Token.RParen])[1 + ts.length]? =
          some Token.RParen := by
        rw [show (1 : Nat) + ts.length = ts.length + 1 from by omega]
        simpa using hrp0
      have hloop : ∀ e2 : Expression,
          parse_term_loop (Token.LParen :: ts ++ [Token.RParen]) e2 (1 + ts.length + 1) =
            (e2, 1 + ts.length + 1) := by
        intro e2
        rw [parse_term_loop]
        rw [dif_neg (by simp; omega)]
      rw [parse, parse_expression, parse_expression_aux]
      rw [dif_pos (show (0:Nat) < (Token.LParen :: ts ++ [Token.RParen]).length by simp)]
      dsimp only []
      rw [parse_term_aux, parse_factor_aux]
      rw [dif_pos (show (0:Nat) < (Token.LParen :: ts ++ [Token.RParen]).length by simp)]
      dsimp only []
      simp only [Nat.zero_add]
      rw [hT1]
      dsimp only []
      rw [hrp]
      dsimp only []
      have hg0 : ∀ (hpf : 0 < (Token.LParen :: ts ++ [Token.RParen]).length),
          GetElem.getElem (Token.LParen :: ts ++ [Token.RParen]) 0 hpf = Token.LParen :=
        fun _ => rfl
      rw [hg0]
      dsimp only []
      rw [hloop e1]
  · simp [parse, h]

/-- C8 witness: parse("(5)") equals parse("5") equals Number 5. -/
theorem c8_parens_transparent_witness :
    parse (Token.LParen :: [Token.Number 5] ++ [Token.RParen]) = .ok (.Number 5) ∧
      parse [Token.Number 5] = .ok (.Number 5) :=
  c8_parens_transparent [Token.Number 5] (.Number 5)
    (by simp [parse_expression, parse_expression_aux, parse_term_aux, parse_factor_aux,
      parse_term_loop])

/-! ## Claim C9: the environment is not rolled back when a Let fails -/

/-- C9 counterexample: compiling Let("x", 1, Let("x", 2, Identifier("z")))
in the empty environment fails (z is unbound), yet afterwards x is mapped to
slot 2, assigned by the nested rebinding Let, not to slot 1, the slot the
outer failed Let newly assigned, as the claim requires. -/
theorem c9_counterexample :
    (compile_expression
        (.Let "x" (.Number 1) (.Let "x" (.Number 2) (.Identifier "z"))) []).1
        = .error () ∧
      envFind (compile_expression
        (.Let "x" (.Number 1) (.Let "x" (.Number 2) (.Identifier "z"))) []).2 "x"
        ≠ some ((([] : Env).length : Int) + 1) :=
  ⟨rfl, by decide⟩

/-- C9 amended: if compiling Let(name, value, body) fails, the binding added
for name is not rolled back: the final environment still maps name to some
slot, and when neither value nor body contains a nested Let of the same name
that slot is exactly the one the failed Let newly assigned (environment
size + 1); a nested rebinding may leave name mapped to a later slot. -/
theorem c9_let_error_keeps_binding (name : String) (value body : Expression)
    (env renv : Env)
    (h : compile_expression (.Let name value body) env = (.error (), renv)) :
    (∃ s, envFind renv name = some s) ∧
      (hasLetOf name value = false → hasLetOf name body = false →
        envFind renv name = some ((env.length : Int) + 1)) := by
  have henv1 : envFind (envInsert env name ((env.length : Int) + 1)) name
      = some ((env.length : Int) + 1) := by rw [envFind_insert]; simp
  rcases hcv : compile_expression value (envInsert env name ((env.length : Int) + 1))
    with ⟨rv, env2⟩
  cases rv with
  | error err =>
    simp [compile_expression, add, hcv] at h
    subst h
    constructor
    · have hs := compile_find_isSome value _ name (by rw [henv1]; rfl)
      rw [hcv] at hs
      exact Option.isSome_iff_exists.mp hs
    · intro hv0 _
      have heq := compile_find_of_no_let value
        (envInsert env name ((env.length : Int) + 1)) name hv0
      rw [hcv] at heq
      rw [heq, henv1]
  | ok instrs =>
    rcases hcb : compile_expression body env2 with ⟨rb, env3⟩
    cases rb with
    | ok bodyInstrs => simp [compile_expression, add, hcv, hcb] at h
    | error err =>
      simp [compile_expression, add, hcv, hcb] at h
      subst h
      have h2 : (envFind env2 name).isSome := by
        have hs := compile_find_isSome value _ name (by rw [henv1]; rfl)
        rw [hcv] at hs
        exact hs
      constructor
      · have hs := compile_find_isSome body env2 name h2
        rw [hcb] at hs
        exact Option.isSome_iff_exists.mp hs
      · intro hv0 hb0
        have e1 := compile_find_of_no_let value
          (envInsert env name ((env.length : Int) + 1)) name hv0
        rw [hcv] at e1
        have e2 := compile_find_of_no_let body env2 name hb0
        rw [hcb] at e2
        rw [e2, e1, henv1]

/-- C9 witness: Let("x", 1, Identifier("z")) fails in the empty environment
and afterwards x is still bound, to the newly assigned slot 1. -/
theorem c9_let_error_keeps_binding_witness :
    (∃ s, envFind [("x", 1)] "x" = some s) ∧
      (hasLetOf "x" (.Number 1) = false → hasLetOf "x" (.Identifier "z") = false →
        envFind [("x", 1)] "x" = some ((([] : Env).length : Int) + 1)) :=
  c9_let_error_keeps_binding "x" (.Number 1) (.Identifier "z") [] [("x", 1)] rfl

/-! ## Claim C10: shape invariant of emitted instructions -/

/-- C10: on any environment whose slots are positive (the well-formedness
the specification gives the environment data model), a successful
compilation returns a non-empty instruction list in which every instruction
has one of the five allowed shapes, with every RegistryOffset offset
strictly negative; in particular Add and Sub are never emitted. -/
theorem c10_instruction_shapes (e : Expression) (env : Env) (hpos : envPos env)
    (instrs : List Instruction) (renv : Env)
    (h : compile_expression e env = (.ok instrs, renv)) :
    instrs ≠ [] ∧ ∀ ins ∈ instrs, goodInstr ins = true := by
  induction e generalizing env instrs renv with
  | Number v =>
    simp [compile_expression] at h
    obtain ⟨h1, -⟩ := h
    subst h1
    exact ⟨by simp, by simp [goodInstr]⟩
  | Increment e1 ih =>
    rcases hc : compile_expression e1 env with ⟨r, env1⟩
    cases r with
    | error err => simp [compile_expression, hc] at h
    | ok is1 =>
      simp [compile_expression, hc] at h
      obtain ⟨h1, -⟩ := h
      subst h1
      obtain ⟨hne, hall⟩ := ih env hpos is1 env1 hc
      refine ⟨by simp, ?_⟩
      intro ins hins
      rcases List.mem_append.mp hins with hmem | hmem
      · exact hall ins hmem
      · simp at hmem; subst hmem; simp [goodInstr]
  | Decrement e1 ih =>
    rcases hc : compile_expression e1 env with ⟨r, env1⟩
    cases r with
    | error err => simp [compile_expression, hc] at h
    | ok is1 =>
      simp [compile_expression, hc] at h
      obtain ⟨h1, -⟩ := h
      subst h1
      obtain ⟨hne, hall⟩ := ih env hpos is1 env1 hc
      refine ⟨by simp, ?_⟩
      intro ins hins
      rcases List.mem_append.mp hins with hmem | hmem
      · exact hall ins hmem
      · simp at hmem; subst hmem; simp [goodInstr]
  | Identifier n =>
    rcases hf : envFind env n with _ | s
    · simp [compile_expression, hf] at h
    · simp [compile_expression, hf] at h
      obtain ⟨h1, -⟩ := h
      subst h1
      have hs := envPos_find env n s hpos hf
      refine ⟨by simp, ?_⟩
      intro ins hins
      simp at hins
      subst hins
      simp [goodInstr]
      omega
  | Let n v b ihv ihb =>
    have hpos1 : envPos (envInsert env n ((env.length : Int) + 1)) :=
      envPos_insert env n _ hpos (by omega)
    rcases hcv : compile_expression v (envInsert env n ((env.length : Int) + 1)) with ⟨rv, env2⟩
    cases rv with
    | error err => simp [compile_expression, add, hcv] at h
    | ok is1 =>
      have hpos2 : envPos env2 := by
        have := compile_envPos v (envInsert env n ((env.length : Int) + 1)) hpos1
        rwa [hcv] at this
      rcases hcb : compile_expression b env2 with ⟨rb, env3⟩
      cases rb with
      | error err => simp [compile_expression, add, hcv, hcb] at h
      | ok is2 =>
        simp [compile_expression, add, hcv, hcb] at h
        obtain ⟨h1, -⟩ := h
        subst h1
        obtain ⟨hne1, hall1⟩ := ihv _ hpos1 is1 env2 hcv
        obtain ⟨hne2, hall2⟩ := ihb env2 hpos2 is2 env3 hcb
        refine ⟨by simp, ?_⟩
        intro ins hins
        rcases List.mem_append.mp hins with hmem | hmem
        · exact hall1 ins hmem
        · rcases List.mem_cons.mp hmem with hm | hm
          · subst hm
            simp [goodInstr]
            omega
          · exact hall2 ins hm

/-- C10 witness: the compilation of let x = 420; x++ from the empty
environment produces a non-empty list of well-shaped instructions. -/
theorem c10_instruction_shapes_witness :
    ([.Mov (.Registry .Rax) (.Constant 420),
      .Mov (.RegistryOffset .Rsp (-1)) (.Registry .Rax),
      .Mov (.Registry .Rax) (.RegistryOffset .Rsp (-1)),
      .Inc (.Registry .Rax)] : List Instruction) ≠ [] ∧
      ∀ ins ∈ ([.Mov (.Registry .Rax) (.Constant 420),
        .Mov (.RegistryOffset .Rsp (-1)) (.Registry .Rax),
        .Mov (.Registry .Rax) (.RegistryOffset .Rsp (-1)),
        .Inc (.Registry .Rax)] : List Instruction), goodInstr ins = true :=
  c10_instruction_shapes (.Let "x" (.Number 420) (.Increment (.Identifier "x"))) []
    (by intro p hp; simp at hp)
    [.Mov (.Registry .Rax) (.Constant 420),
     .Mov (.RegistryOffset .Rsp (-1)) (.Registry .Rax),
     .Mov (.Registry .Rax) (.RegistryOffset .Rsp (-1)),
     .Inc (.Registry .Rax)] [("x", 1)] rfl
